import Mathlib

/-!
Shallow embedding of the `ProblemSearchEngine` class from
`client/src/lib/searchEngine.ts` (CODE SEARCH PRO), together with proofs of
the specification's claims about it.

Records are modelled by the fields the engine reads (`title`, `frontend_id`,
`difficulty`, `topics`); the inverted index (a JS `Map<string, Set<number>>`
with insertion order) is an association list with insertion-ordered,
duplicate-free value lists; the per-query score accumulator
(`Map<number, {score, matchedFields:Set<string>}>`) is an association list as
well.  JS `Array.prototype.sort` with comparator `(a,b) => b.score - a.score`
is stable, so it is modelled by a stable insertion sort on descending score.
`Array.prototype.slice(0, n)` is modelled by `jsTake`, including its
negative-argument (count-from-the-end) behaviour.
-/

namespace CSP

/-- The three-valued difficulty enumeration `'Easy' | 'Medium' | 'Hard'`. -/
inductive Difficulty where
  | easy
  | medium
  | hard
  deriving DecidableEq, Repr

/-- `difficulty.toLowerCase()` for the three enum values. -/
def Difficulty.lower : Difficulty → String
  | .easy => "easy"
  | .medium => "medium"
  | .hard => "hard"

/-- A record, restricted to the fields the search engine reads. -/
structure Problem where
  title : String
  frontend_id : String
  difficulty : Difficulty
  topics : List String
  deriving DecidableEq, Repr

instance : Inhabited Problem := ⟨⟨"", "", .easy, []⟩⟩

/-- One accumulator entry: `{score: number, matchedFields: Set<string>}`. -/
structure ScoreEntry where
  score : Nat
  matchedFields : List String
  deriving DecidableEq, Repr

/-- A returned search result `{problem, score, matchedFields}`. -/
structure SearchResult where
  problem : Problem
  score : Nat
  matchedFields : List String
  deriving DecidableEq, Repr

/-- The record returned by `getStats()`. -/
structure Stats where
  totalProblems : Nat
  indexSize : Nat
  easy : Nat
  medium : Nat
  hard : Nat
  deriving DecidableEq, Repr

/-- The inverted index `Map<string, Set<number>>`, in insertion order. -/
abbrev SIndex := List (String × List Nat)

/-- The score accumulator `Map<number, {score, matchedFields}>`. -/
abbrev ScoreMap := List (Nat × ScoreEntry)

/-- JS `Set.add`: append if absent, keep insertion order otherwise. -/
def jsSetAdd {α : Type} [DecidableEq α] (l : List α) (x : α) : List α :=
  if x ∈ l then l else l ++ [x]

/-- JS `s.startsWith(w)`. -/
def jsStartsWith (s w : String) : Bool := decide (w.toList <+: s.toList)

/-- JS `s.includes(w)` (substring containment). -/
def jsIncludes (s w : String) : Bool := decide (w.toList <:+: s.toList)

/-- JS `arr.slice(0, n)`: a nonnegative `n` takes the first `n` elements, a
negative `n` counts from the end (`max (length + n) 0` elements). -/
def jsTake {α : Type} (n : Int) (l : List α) : List α :=
  if n < 0 then l.take ((l.length : Int) + n).toNat else l.take n.toNat

/-- Characters kept by the regex replacement `[^a-z0-9\s]` → `' '`. -/
def keepChar (c : Char) : Bool :=
  (('a' ≤ c && c ≤ 'z') || ('0' ≤ c && c ≤ '9')) || c.isWhitespace

/-- Lowercasing, JS `toLowerCase` restricted to its ASCII behaviour
(character-wise, as `String.toLower` does). -/
def strLower (s : String) : String := String.mk (s.toList.map Char.toLower)

/-- Split a character list at every separator character (the pieces between
separators, empty pieces included, as `String.split` produces them). -/
def splitChar (p : Char → Bool) : List Char → List (List Char)
  | [] => [[]]
  | c :: rest =>
      if p c then [] :: splitChar p rest
      else
        match splitChar p rest with
        | [] => [[c]]
        | r :: rs => (c :: r) :: rs

/-- `tokenize`: lowercase, replace every non-(lowercase-alphanumeric or
whitespace) character by a space, split on whitespace runs, drop empty
pieces. -/
def tokenize (text : String) : List String :=
  ((splitChar Char.isWhitespace
        (text.toList.map fun c =>
          let lc := c.toLower
          if keepChar lc then lc else ' ')).map fun l => String.mk l).filter
    fun s => s ≠ ""

/-- The guard `!query.trim()`: the query is empty or all-whitespace. -/
def blankQuery (q : String) : Bool := q.toList.all Char.isWhitespace

/-- `Map.get`/`Map.has` on the index: first entry with the given key. -/
def idxFind : SIndex → String → Option (List Nat)
  | [], _ => none
  | kv :: rest, k => if kv.1 = k then some kv.2 else idxFind rest k

/-- The set of positions stored under a key (empty when the key is absent). -/
def lookupD (m : SIndex) (k : String) : List Nat := (idxFind m k).getD []

/-- `index.get(k)!.add(i)` preceded by `index.set(k, new Set())` when the key
is absent: update the first entry with the key in place, else append. -/
def indexAdd : SIndex → String → Nat → SIndex
  | [], k, i => [(k, [i])]
  | kv :: rest, k, i =>
      if kv.1 = k then (kv.1, jsSetAdd kv.2 i) :: rest
      else kv :: indexAdd rest k i

/-- The body of `buildIndex`'s `forEach` for one record at position `i`:
index the title tokens, each topic's tokens, the lowercased difficulty, and
the identifier string verbatim. -/
def addProblem (m : SIndex) (i : Nat) (p : Problem) : SIndex :=
  let m1 := (tokenize p.title).foldl (fun m w => indexAdd m w i) m
  let m2 := p.topics.foldl
      (fun m s => (tokenize s).foldl (fun m w => indexAdd m w i) m) m1
  let m3 := indexAdd m2 p.difficulty.lower i
  indexAdd m3 p.frontend_id i

/-- `buildIndex`: fold `addProblem` over the records with their positions. -/
def buildIndex (ps : List Problem) : SIndex :=
  ps.enum.foldl (fun m ip => addProblem m ip.1 ip.2) []

/-- Accumulator lookup. -/
def scoreFind : ScoreMap → Nat → Option ScoreEntry
  | [], _ => none
  | kv :: rest, i => if kv.1 = i then some kv.2 else scoreFind rest i

/-- The accumulated score of position `i` (0 when absent). -/
def getScore (sc : ScoreMap) (i : Nat) : Nat :=
  match scoreFind sc i with
  | some e => e.score
  | none => 0

/-- The accumulated match-kind labels of position `i` ([] when absent). -/
def getFields (sc : ScoreMap) (i : Nat) : List String :=
  match scoreFind sc i with
  | some e => e.matchedFields
  | none => []

/-- Ensure an entry for `i`, add `pts` to its score and `lbl` to its
match-kind set (the body of each rule's `forEach(idx => ...)`). -/
def addScore : ScoreMap → Nat → Nat → String → ScoreMap
  | [], i, pts, lbl => [(i, ⟨pts, [lbl]⟩)]
  | kv :: rest, i, pts, lbl =>
      if kv.1 = i then
        (kv.1, ⟨kv.2.score + pts, jsSetAdd kv.2.matchedFields lbl⟩) :: rest
      else kv :: addScore rest i pts lbl

/-- `indices.forEach(idx => ...)`: award `pts`/`lbl` to every position. -/
def addMany (sc : ScoreMap) (is : List Nat) (pts : Nat) (lbl : String) :
    ScoreMap :=
  is.foldl (fun sc i => addScore sc i pts lbl) sc

/-- The exact-match rule: `if (this.index.has(word)) ... += 10, 'exact'`. -/
def ruleExact (idx : SIndex) (sc : ScoreMap) (w : String) : ScoreMap :=
  match idxFind idx w with
  | some is => addMany sc is 10 "exact"
  | none => sc

/-- The prefix-rule guard `indexWord.startsWith(word) && indexWord !== word`. -/
def condPre (kv : String × List Nat) (w : String) : Bool :=
  jsStartsWith kv.1 w && kv.1 != w

/-- The contains-rule guard
`indexWord.includes(word) && !indexWord.startsWith(word)`. -/
def condSub (kv : String × List Nat) (w : String) : Bool :=
  jsIncludes kv.1 w && !jsStartsWith kv.1 w

/-- The fuzzy (prefix) rule: scan the whole index, `+= 5`, label "prefix". -/
def rulePre (idx : SIndex) (sc : ScoreMap) (w : String) : ScoreMap :=
  idx.foldl (fun sc kv => if condPre kv w then addMany sc kv.2 5 "prefix" else sc) sc

/-- The contains rule: scan the whole index, `+= 2`, label "contains". -/
def ruleSub (idx : SIndex) (sc : ScoreMap) (w : String) : ScoreMap :=
  idx.foldl (fun sc kv => if condSub kv w then addMany sc kv.2 2 "contains" else sc) sc

/-- Processing of one query token: exact, then prefix, then contains rule. -/
def wordStep (idx : SIndex) (sc : ScoreMap) (w : String) : ScoreMap :=
  ruleSub idx (rulePre idx (ruleExact idx sc w) w) w

/-- The whole accumulation loop `queryWords.forEach(word => ...)`. -/
def searchScores (idx : SIndex) (ws : List String) : ScoreMap :=
  ws.foldl (wordStep idx) []

/-- `([idx, {score, matchedFields}]) => ({problem, score, matchedFields})`. -/
def toResult (ps : List Problem) (e : Nat × ScoreEntry) : SearchResult :=
  ⟨ps.getD e.1 default, e.2.score, e.2.matchedFields⟩

/-- Stable insertion before the first strictly smaller score. -/
def insertDesc (r : SearchResult) : List SearchResult → List SearchResult
  | [] => [r]
  | x :: xs => if x.score ≤ r.score then r :: x :: xs else x :: insertDesc r xs

/-- Stable sort by descending score, modelling JS
`sort((a, b) => b.score - a.score)` (stable per the ECMAScript spec). -/
def sortDesc : List SearchResult → List SearchResult
  | [] => []
  | x :: xs => insertDesc x (sortDesc xs)

/-- The full sorted result list of `search`, before `slice(0, maxResults)`. -/
def searchAll (ps : List Problem) (q : String) : List SearchResult :=
  sortDesc (((searchScores (buildIndex ps) (tokenize q))).map (toResult ps))

/-- `search(query, maxResults)`. -/
def search (ps : List Problem) (q : String) (maxResults : Int) :
    List SearchResult :=
  if blankQuery q then [] else jsTake maxResults (searchAll ps q)

/-- `autocomplete(query, maxSuggestions)`: titles containing the lowercased
query, then topics containing it, deduplicated in insertion order. -/
def autocomplete (ps : List Problem) (q : String) (maxSuggestions : Int) :
    List String :=
  if blankQuery q then []
  else
    let ql := strLower q
    let s1 := ps.foldl
        (fun acc p => if jsIncludes (strLower p.title) ql then jsSetAdd acc p.title
         else acc) []
    let s2 := ps.foldl
        (fun acc p => p.topics.foldl
          (fun acc t => if jsIncludes (strLower t) ql then jsSetAdd acc t else acc)
          acc) s1
    jsTake maxSuggestions s2

/-- `getStats()`. -/
def getStats (ps : List Problem) : Stats :=
  { totalProblems := ps.length
    indexSize := (buildIndex ps).length
    easy := (ps.filter fun p => p.difficulty = Difficulty.easy).length
    medium := (ps.filter fun p => p.difficulty = Difficulty.medium).length
    hard := (ps.filter fun p => p.difficulty = Difficulty.hard).length }

/-- Whether position `i` is stored under `w` itself (the exact rule fires). -/
def exactB (idx : SIndex) (w : String) (i : Nat) : Bool :=
  match idxFind idx w with
  | some is => decide (i ∈ is)
  | none => false

/-- The total score one query token `w` contributes to position `i`:
10 for an exact key hit, 5 per index entry satisfying the prefix guard whose
set holds `i`, 2 per index entry satisfying the contains guard whose set
holds `i`. -/
def wordScore (idx : SIndex) (w : String) (i : Nat) : Nat :=
  (if exactB idx w i then 10 else 0)
    + 5 * (idx.filter fun kv => condPre kv w && decide (i ∈ kv.2)).length
    + 2 * (idx.filter fun kv => condSub kv w && decide (i ∈ kv.2)).length

/-- Rule `lbl` fires for position `i` on query token `w`. -/
def fires (idx : SIndex) (w : String) (i : Nat) (lbl : String) : Prop :=
  (exactB idx w i = true ∧ lbl = "exact")
    ∨ ((∃ kv ∈ idx, condPre kv w = true ∧ i ∈ kv.2) ∧ lbl = "prefix")
    ∨ ((∃ kv ∈ idx, condSub kv w = true ∧ i ∈ kv.2) ∧ lbl = "contains")

/-- Token `t` is produced for record `p` by the index builder: a title token,
a topic token, the lowercased difficulty, or the identifier verbatim. -/
def recordHasToken (p : Problem) (t : String) : Prop :=
  t ∈ tokenize p.title ∨ (∃ s ∈ p.topics, t ∈ tokenize s)
    ∨ t = p.difficulty.lower ∨ t = p.frontend_id

/-- The per-record topic strings that case-insensitively contain `ql`, in
record order, topics in order. -/
def topicMatches (ps : List Problem) (ql : String) : List String :=
  match ps with
  | [] => []
  | p :: rest =>
      p.topics.filter (fun t => jsIncludes (strLower t) ql)
        ++ topicMatches rest ql

/-- Modelled from the spec's description of autocomplete (claim side): the
matching titles in record order, then the matching topics in record order,
deduplicated keeping first occurrences. -/
def autocompleteSpec (ps : List Problem) (q : String) : List String :=
  (((ps.filter fun p => jsIncludes (strLower p.title) (strLower q)).map
        Problem.title)
      ++ topicMatches ps (strLower q)).foldl jsSetAdd []

/-- Record 1 of the spec's end-to-end scenario. -/
def p0 : Problem := ⟨"Two Sum", "1", .easy, ["Array", "Hash Table"]⟩

/-- Record 2 of the spec's end-to-end scenario. -/
def p1 : Problem := ⟨"Number of Islands", "200", .medium, ["Graph"]⟩

/-- The spec's two-record scenario collection. -/
def probs2 : List Problem := [p0, p1]

/-- Two records whose titles both contain "sum" (negative-bound example). -/
def probsTS : List Problem :=
  [⟨"Two Sum", "1", .easy, []⟩, ⟨"Three Sum", "3", .easy, []⟩]

/-- A record whose title contains a space (whitespace-query example). -/
def probsWS : List Problem := [⟨"a b", "9", .easy, []⟩]

lemma jsTake_nil {α : Type} (n : Int) : jsTake n ([] : List α) = [] := by
  unfold jsTake
  split <;> simp

lemma mem_insertDesc {r x : SearchResult} {l : List SearchResult} :
    x ∈ insertDesc r l ↔ x = r ∨ x ∈ l := by
  induction l with
  | nil => simp [insertDesc]
  | cons y ys ih =>
    by_cases h : y.score ≤ r.score
    · simp [insertDesc, h]
      try tauto
    · simp [insertDesc, h, ih]
      try tauto

lemma pairwise_insertDesc {r : SearchResult} {l : List SearchResult}
    (h : l.Pairwise fun a b => b.score ≤ a.score) :
    (insertDesc r l).Pairwise fun a b => b.score ≤ a.score := by
  induction l with
  | nil => simp [insertDesc]
  | cons x xs ih =>
    rcases List.pairwise_cons.mp h with ⟨hx, hxs⟩
    by_cases hc : x.score ≤ r.score
    · rw [insertDesc, if_pos hc]
      refine List.pairwise_cons.mpr ⟨?_, h⟩
      intro y hy
      rcases List.mem_cons.mp hy with rfl | hy'
      · exact hc
      · exact le_trans (hx y hy') hc
    · rw [insertDesc, if_neg hc]
      refine List.pairwise_cons.mpr ⟨?_, ih hxs⟩
      intro y hy
      rcases mem_insertDesc.mp hy with rfl | hy'
      · omega
      · exact hx y hy'

lemma pairwise_sortDesc (l : List SearchResult) :
    (sortDesc l).Pairwise fun a b => b.score ≤ a.score := by
  induction l with
  | nil => simp [sortDesc]
  | cons x xs ih => exact pairwise_insertDesc ih

lemma jsTake_sublist {α : Type} (n : Int) (l : List α) :
    (jsTake n l).Sublist l := by
  unfold jsTake
  split <;> exact List.take_sublist _ _

/-- C4: on the spec's two-record scenario, `search("easy", 10)` returns
exactly the first record with score 10 (an exact match) and not the second;
`search("sum", 10)` returns the first record via an exact title-token match;
`autocomplete("is", 10)` returns exactly `["Number of Islands"]`. -/
theorem c4_end_to_end :
    search probs2 "easy" 10 = [⟨p0, 10, ["exact"]⟩]
      ∧ search probs2 "sum" 10 = [⟨p0, 10, ["exact"]⟩]
      ∧ autocomplete probs2 "is" 10 = ["Number of Islands"] :=
  ⟨by decide, by decide, by decide⟩

/-- C7: an empty or whitespace-only query makes both `search` and
`autocomplete` return the empty sequence, for every record set and bound. -/
theorem c7_empty_query (ps : List Problem) (n : Int) (q : String)
    (h : blankQuery q = true) :
    search ps q n = [] ∧ autocomplete ps q n = [] := by
  unfold search autocomplete
  simp [h]

/-- Witness for C7 at the empty record set, query `" "`, bound 3. -/
theorem c7_empty_query_witness :
    blankQuery " " = true ∧ search [] " " 3 = [] ∧ autocomplete [] " " 3 = [] :=
  ⟨by decide, c7_empty_query [] 3 " " (by decide)⟩

/-- C10: whenever tokenizing the query yields no tokens — in particular for
queries made only of non-alphanumeric, non-whitespace characters, which pass
the emptiness guard — `search` returns the empty sequence for every record
set and bound. -/
theorem c10_no_tokens (ps : List Problem) (b : Int) (q : String)
    (h : tokenize q = []) : search ps q b = [] := by
  unfold search searchAll
  rw [h]
  by_cases hq : blankQuery q <;> simp [hq, searchScores, sortDesc, jsTake_nil]

/-- Witness for C10 at query `"!!!"`, which passes the guard yet has no
tokens. -/
theorem c10_no_tokens_witness :
    tokenize "!!!" = [] ∧ blankQuery "!!!" = false
      ∧ search probs2 "!!!" 10 = [] :=
  ⟨by decide, by decide, c10_no_tokens probs2 10 "!!!" (by decide)⟩

/-- C6: with a positive bound `k`, `search` never returns more than `k`
results. -/
theorem c6_result_bound (ps : List Problem) (q : String) (k : Int)
    (hk : 0 < k) : ((search ps q k).length : Int) ≤ k := by
  unfold search
  by_cases hq : blankQuery q
  · simp [hq]
    omega
  · rw [if_neg hq, jsTake, if_neg (by omega : ¬ k < (0 : Int))]
    have h1 := List.length_take_le k.toNat (searchAll ps q)
    omega

/-- Witness for C6 on the two-record scenario with bound 10. -/
theorem c6_result_bound_witness :
    (0 : Int) < 10 ∧ ((search probs2 "sum" 10).length : Int) ≤ 10 :=
  ⟨by decide, c6_result_bound probs2 "sum" 10 (by decide)⟩

/-- C3 counterexample: with the non-positive bound `-1`, `autocomplete` on a
two-record collection both of whose titles contain "sum" silently returns a
non-empty sequence (JS `slice(0, -1)` drops only the last entry), refuting
the claim that a non-positive bound always yields an empty result or a
failure. -/
theorem c3_counterexample :
    (-1 : Int) ≤ 0 ∧ autocomplete probsTS "sum" (-1) ≠ [] :=
  ⟨by decide, by decide⟩

/-- C3 (amended): with bound `0` both operations return the empty sequence
and neither operation ever fails; a negative bound, however, is applied as
JS `slice(0, bound)` — dropping `|bound|` entries from the end — and can
return a non-empty sequence. -/
theorem c3_nonpositive_bound :
    (∀ (ps : List Problem) (q : String),
        search ps q 0 = [] ∧ autocomplete ps q 0 = [])
      ∧ ∃ (ps : List Problem) (q : String), autocomplete ps q (-1) ≠ [] := by
  constructor
  · intro ps q
    constructor
    · unfold search
      by_cases hq : blankQuery q <;> simp [hq, jsTake]
    · unfold autocomplete
      by_cases hq : blankQuery q <;> simp [hq, jsTake]
  · exact ⟨probsTS, "sum", by decide⟩

lemma jsSetAdd_ne_nil {α : Type} [DecidableEq α] (l : List α) (x : α) :
    jsSetAdd l x ≠ [] := by
  unfold jsSetAdd
  split
  · rename_i h
    intro hnil
    rw [hnil] at h
    simp at h
  · simp

lemma jsSetAdd_nodup {α : Type} [DecidableEq α] {l : List α} (x : α)
    (h : l.Nodup) : (jsSetAdd l x).Nodup := by
  unfold jsSetAdd
  split
  · exact h
  · rename_i hx
    simp [List.nodup_append, h, hx]

lemma mem_jsSetAdd {α : Type} [DecidableEq α] {l : List α} {x y : α} :
    y ∈ jsSetAdd l x ↔ y ∈ l ∨ y = x := by
  unfold jsSetAdd
  split
  · rename_i h
    constructor
    · exact Or.inl
    · rintro (hy | rfl)
      · exact hy
      · exact h
  · simp

lemma foldl_preserve {α : Type} (P : SIndex → Prop) (f : SIndex → α → SIndex)
    (hf : ∀ m a, P m → P (f m a)) :
    ∀ (l : List α) (m : SIndex), P m → P (l.foldl f m) := by
  intro l
  induction l with
  | nil => intro m h; exact h
  | cons a rest ih => intro m h; exact ih (f m a) (hf m a h)

lemma addProblem_preserve (P : SIndex → Prop)
    (hP : ∀ (m : SIndex) (k : String) (i : Nat), P m → P (indexAdd m k i))
    (m : SIndex) (i : Nat) (p : Problem) (h : P m) : P (addProblem m i p) := by
  unfold addProblem
  apply hP
  apply hP
  apply foldl_preserve P
    (fun m s => (tokenize s).foldl (fun m w => indexAdd m w i) m)
    (fun m s hm => foldl_preserve P (fun m w => indexAdd m w i)
      (fun m w hm => hP m w i hm) (tokenize s) m hm)
  exact foldl_preserve P (fun m w => indexAdd m w i)
    (fun m w hm => hP m w i hm) (tokenize p.title) m h

lemma buildIndex_preserve (P : SIndex → Prop)
    (hP : ∀ (m : SIndex) (k : String) (i : Nat), P m → P (indexAdd m k i))
    (h0 : P []) (ps : List Problem) : P (buildIndex ps) := by
  unfold buildIndex
  exact foldl_preserve P (fun m ip => addProblem m ip.1 ip.2)
    (fun m ip h => addProblem_preserve P hP m ip.1 ip.2 h)
    ps.enum [] h0

lemma keys_indexAdd (m : SIndex) (k : String) (i : Nat) :
    (indexAdd m k i).map Prod.fst =
      if k ∈ m.map Prod.fst then m.map Prod.fst else m.map Prod.fst ++ [k] := by
  induction m with
  | nil => simp [indexAdd]
  | cons kv rest ih =>
    by_cases h : kv.1 = k
    · simp [indexAdd, h]
    · simp only [indexAdd, if_neg h, List.map_cons, ih, List.mem_cons]
      by_cases h2 : k ∈ rest.map Prod.fst
      · simp [h2, Ne.symm h]
      · simp [h2, Ne.symm h]

lemma keys_nodup_indexAdd {m : SIndex} (k : String) (i : Nat)
    (h : (m.map Prod.fst).Nodup) : ((indexAdd m k i).map Prod.fst).Nodup := by
  rw [keys_indexAdd]
  by_cases h2 : k ∈ m.map Prod.fst
  · simp [h2, h]
  · simp [h2, List.nodup_append, h]

lemma buildIndex_keys_nodup (ps : List Problem) :
    ((buildIndex ps).map Prod.fst).Nodup :=
  buildIndex_preserve (fun m => (m.map Prod.fst).Nodup)
    (fun _ k i h => keys_nodup_indexAdd k i h) (by simp) ps

lemma values_ne_nil_indexAdd {m : SIndex} (k : String) (i : Nat)
    (h : ∀ kv ∈ m, kv.2 ≠ []) : ∀ kv ∈ indexAdd m k i, kv.2 ≠ [] := by
  induction m with
  | nil =>
    intro kv hkv
    simp [indexAdd] at hkv
    simp [hkv]
  | cons hd rest ih =>
    intro kv hkv
    by_cases hh : hd.1 = k
    · rw [indexAdd, if_pos hh] at hkv
      rcases List.mem_cons.mp hkv with rfl | hkv'
      · exact jsSetAdd_ne_nil _ _
      · exact h kv (List.mem_cons_of_mem hd hkv')
    · rw [indexAdd, if_neg hh] at hkv
      rcases List.mem_cons.mp hkv with rfl | hkv'
      · exact h kv (List.mem_cons_self kv rest)
      · exact ih (fun kv hkv => h kv (List.mem_cons_of_mem hd hkv)) kv hkv'

lemma buildIndex_values_ne_nil (ps : List Problem) :
    ∀ kv ∈ buildIndex ps, kv.2 ≠ [] :=
  buildIndex_preserve (fun m => ∀ kv ∈ m, kv.2 ≠ [])
    (fun _ k i h => values_ne_nil_indexAdd k i h) (by simp) ps

lemma values_nodup_indexAdd {m : SIndex} (k : String) (i : Nat)
    (h : ∀ kv ∈ m, kv.2.Nodup) : ∀ kv ∈ indexAdd m k i, kv.2.Nodup := by
  induction m with
  | nil =>
    intro kv hkv
    simp [indexAdd] at hkv
    simp [hkv]
  | cons hd rest ih =>
    intro kv hkv
    by_cases hh : hd.1 = k
    · rw [indexAdd, if_pos hh] at hkv
      rcases List.mem_cons.mp hkv with rfl | hkv'
      · exact jsSetAdd_nodup i (h hd (List.mem_cons_self hd rest))
      · exact h kv (List.mem_cons_of_mem hd hkv')
    · rw [indexAdd, if_neg hh] at hkv
      rcases List.mem_cons.mp hkv with rfl | hkv'
      · exact h kv (List.mem_cons_self kv rest)
      · exact ih (fun kv hkv => h kv (List.mem_cons_of_mem hd hkv)) kv hkv'

lemma buildIndex_values_nodup (ps : List Problem) :
    ∀ kv ∈ buildIndex ps, kv.2.Nodup :=
  buildIndex_preserve (fun m => ∀ kv ∈ m, kv.2.Nodup)
    (fun _ k i h => values_nodup_indexAdd k i h) (by simp) ps

lemma diff_count_sum (ps : List Problem) :
    (ps.filter fun p => p.difficulty = Difficulty.easy).length
      + (ps.filter fun p => p.difficulty = Difficulty.medium).length
      + (ps.filter fun p => p.difficulty = Difficulty.hard).length
      = ps.length := by
  induction ps with
  | nil => simp
  | cons p rest ih =>
    cases hd : p.difficulty <;> simp [List.filter_cons, hd] <;> omega

lemma scoreFind_addScore (sc : ScoreMap) (i pts : Nat) (lbl : String)
    (j : Nat) :
    scoreFind (addScore sc i pts lbl) j =
      if j = i then some ⟨getScore sc i + pts, jsSetAdd (getFields sc i) lbl⟩
      else scoreFind sc j := by
  induction sc with
  | nil =>
    by_cases h : j = i
    · subst h
      simp [addScore, scoreFind, getScore, getFields, jsSetAdd]
    · simp [addScore, scoreFind, getScore, getFields, h, Ne.symm h]
  | cons kv rest ih =>
    by_cases hk : kv.1 = i
    · subst hk
      rw [addScore, if_pos rfl]
      by_cases hj : j = kv.1
      · subst hj
        simp [scoreFind, getScore, getFields]
      · simp [scoreFind, hj, Ne.symm hj]
    · rw [addScore, if_neg hk]
      by_cases hj : j = kv.1
      · subst hj
        simp [scoreFind, hk]
      · simp [scoreFind, getScore, getFields, hj, Ne.symm hj, hk, ih]

lemma getScore_addScore (sc : ScoreMap) (i pts : Nat) (lbl : String)
    (j : Nat) :
    getScore (addScore sc i pts lbl) j
      = getScore sc j + (if j = i then pts else 0) := by
  rw [getScore, scoreFind_addScore]
  by_cases h : j = i
  · subst h
    simp [getScore]
  · simp [h, getScore]

lemma getFields_addScore (sc : ScoreMap) (i pts : Nat) (lbl : String)
    (j : Nat) :
    getFields (addScore sc i pts lbl) j
      = if j = i then jsSetAdd (getFields sc i) lbl else getFields sc j := by
  rw [getFields, scoreFind_addScore]
  by_cases h : j = i
  · subst h
    simp
  · simp [h, getFields]

lemma mem_getFields_addScore {sc : ScoreMap} {i pts : Nat} {lbl : String}
    {j : Nat} {x : String} :
    x ∈ getFields (addScore sc i pts lbl) j
      ↔ x ∈ getFields sc j ∨ (j = i ∧ x = lbl) := by
  rw [getFields_addScore]
  by_cases h : j = i
  · subst h
    rw [if_pos rfl, mem_jsSetAdd]
    tauto
  · simp [h]

lemma getScore_addMany (is : List Nat) (pts : Nat) (lbl : String) :
    ∀ (sc : ScoreMap) (j : Nat),
      getScore (addMany sc is pts lbl) j = getScore sc j + pts * is.count j := by
  induction is with
  | nil =>
    intro sc j
    simp [addMany]
  | cons i is ih =>
    intro sc j
    rw [addMany, List.foldl_cons,
      show is.foldl (fun sc i => addScore sc i pts lbl) (addScore sc i pts lbl)
        = addMany (addScore sc i pts lbl) is pts lbl from rfl,
      ih, getScore_addScore, List.count_cons]
    by_cases h : j = i
    · simp [h]
      ring
    · simp [h, Ne.symm h]

lemma mem_getFields_addMany (is : List Nat) (pts : Nat) (lbl : String) :
    ∀ (sc : ScoreMap) (j : Nat) (x : String),
      x ∈ getFields (addMany sc is pts lbl) j
        ↔ x ∈ getFields sc j ∨ (j ∈ is ∧ x = lbl) := by
  induction is with
  | nil =>
    intro sc j x
    simp [addMany]
  | cons i is ih =>
    intro sc j x
    rw [addMany, List.foldl_cons,
      show is.foldl (fun sc i => addScore sc i pts lbl) (addScore sc i pts lbl)
        = addMany (addScore sc i pts lbl) is pts lbl from rfl,
      ih, mem_getFields_addScore]
    simp only [List.mem_cons]
    tauto

lemma idxFind_mem : ∀ {m : SIndex} {k : String} {v : List Nat},
    idxFind m k = some v → (k, v) ∈ m := by
  intro m
  induction m with
  | nil =>
    intro k v h
    simp [idxFind] at h
  | cons kv rest ih =>
    intro k v h
    rw [idxFind] at h
    by_cases hk : kv.1 = k
    · rw [if_pos hk] at h
      injection h with h
      subst hk
      subst h
      simp
    · rw [if_neg hk] at h
      exact List.mem_cons_of_mem kv (ih h)

lemma getScore_ruleExact {idx : SIndex} (hnd : ∀ kv ∈ idx, kv.2.Nodup)
    (sc : ScoreMap) (w : String) (j : Nat) :
    getScore (ruleExact idx sc w) j
      = getScore sc j + (if exactB idx w j then 10 else 0) := by
  unfold ruleExact exactB
  cases hf : idxFind idx w with
  | none => simp
  | some is =>
    rw [getScore_addMany, List.count_eq_of_nodup (hnd (w, is) (idxFind_mem hf))]
    by_cases h : j ∈ is <;> simp [h]

lemma mem_getFields_ruleExact {idx : SIndex} (sc : ScoreMap) (w : String)
    (j : Nat) (x : String) :
    x ∈ getFields (ruleExact idx sc w) j
      ↔ x ∈ getFields sc j ∨ (exactB idx w j = true ∧ x = "exact") := by
  unfold ruleExact exactB
  cases hf : idxFind idx w with
  | none => simp
  | some is =>
    rw [mem_getFields_addMany]
    by_cases h : j ∈ is <;> simp [h]

lemma getScore_ruleScan (cond : String × List Nat → String → Bool)
    (pts : Nat) (lbl : String) (w : String) :
    ∀ (idx : SIndex), (∀ kv ∈ idx, kv.2.Nodup) → ∀ (sc : ScoreMap) (j : Nat),
      getScore (idx.foldl
          (fun sc kv => if cond kv w then addMany sc kv.2 pts lbl else sc)
          sc) j
        = getScore sc j
            + pts * (idx.filter
                fun kv => cond kv w && decide (j ∈ kv.2)).length := by
  intro idx
  induction idx with
  | nil =>
    intro _ sc j
    simp
  | cons kv rest ih =>
    intro hnd sc j
    have hrest : ∀ kv' ∈ rest, kv'.2.Nodup :=
      fun kv' h => hnd kv' (List.mem_cons_of_mem kv h)
    rw [List.foldl_cons, ih hrest, List.filter_cons]
    by_cases hc : cond kv w
    · rw [if_pos hc, getScore_addMany,
        List.count_eq_of_nodup (hnd kv (List.mem_cons_self kv rest))]
      by_cases hj : j ∈ kv.2
      · simp [hc, hj]
        ring
      · simp [hc, hj]
    · rw [if_neg hc]
      simp [hc]

lemma mem_getFields_ruleScan (cond : String × List Nat → String → Bool)
    (pts : Nat) (lbl : String) (w : String) :
    ∀ (idx : SIndex) (sc : ScoreMap) (j : Nat) (x : String),
      x ∈ getFields (idx.foldl
          (fun sc kv => if cond kv w then addMany sc kv.2 pts lbl else sc)
          sc) j
        ↔ x ∈ getFields sc j
            ∨ ((∃ kv ∈ idx, cond kv w = true ∧ j ∈ kv.2) ∧ x = lbl) := by
  intro idx
  induction idx with
  | nil =>
    intro sc j x
    simp
  | cons kv rest ih =>
    intro sc j x
    rw [List.foldl_cons, ih]
    by_cases hc : cond kv w
    · rw [if_pos hc, mem_getFields_addMany]
      simp only [List.mem_cons]
      constructor
      · rintro ((hx | ⟨hj, rfl⟩) | ⟨⟨kv', hkv', hck, hjk⟩, rfl⟩)
        · exact Or.inl hx
        · exact Or.inr ⟨⟨kv, Or.inl rfl, hc, hj⟩, rfl⟩
        · exact Or.inr ⟨⟨kv', Or.inr hkv', hck, hjk⟩, rfl⟩
      · rintro (hx | ⟨⟨kv', hkv' | hkv', hck, hjk⟩, rfl⟩)
        · exact Or.inl (Or.inl hx)
        · exact Or.inl (Or.inr ⟨hkv' ▸ hjk, rfl⟩)
        · exact Or.inr ⟨⟨kv', hkv', hck, hjk⟩, rfl⟩
    · rw [if_neg hc]
      simp only [List.mem_cons]
      constructor
      · rintro (hx | ⟨⟨kv', hkv', hck, hjk⟩, rfl⟩)
        · exact Or.inl hx
        · exact Or.inr ⟨⟨kv', Or.inr hkv', hck, hjk⟩, rfl⟩
      · rintro (hx | ⟨⟨kv', hkv' | hkv', hck, hjk⟩, rfl⟩)
        · exact Or.inl hx
        · exact absurd (hkv' ▸ hck) hc
        · exact Or.inr ⟨⟨kv', hkv', hck, hjk⟩, rfl⟩

lemma getScore_wordStep {idx : SIndex} (hnd : ∀ kv ∈ idx, kv.2.Nodup)
    (sc : ScoreMap) (w : String) (j : Nat) :
    getScore (wordStep idx sc w) j = getScore sc j + wordScore idx w j := by
  unfold wordStep rulePre ruleSub wordScore
  rw [getScore_ruleScan condSub 2 "contains" w idx hnd,
    getScore_ruleScan condPre 5 "prefix" w idx hnd,
    getScore_ruleExact hnd]
  omega

lemma mem_getFields_wordStep {idx : SIndex} (sc : ScoreMap) (w : String)
    (j : Nat) (x : String) :
    x ∈ getFields (wordStep idx sc w) j
      ↔ x ∈ getFields sc j ∨ fires idx w j x := by
  unfold wordStep rulePre ruleSub fires
  rw [mem_getFields_ruleScan condSub 2 "contains" w idx,
    mem_getFields_ruleScan condPre 5 "prefix" w idx,
    mem_getFields_ruleExact]
  constructor
  · rintro (((hx | he) | hp) | hs)
    · exact Or.inl hx
    · exact Or.inr (Or.inl he)
    · exact Or.inr (Or.inr (Or.inl hp))
    · exact Or.inr (Or.inr (Or.inr hs))
  · rintro (hx | (he | hp | hs))
    · exact Or.inl (Or.inl (Or.inl hx))
    · exact Or.inl (Or.inl (Or.inr he))
    · exact Or.inl (Or.inr hp)
    · exact Or.inr hs

lemma getScore_searchScores {idx : SIndex} (hnd : ∀ kv ∈ idx, kv.2.Nodup)
    (ws : List String) (j : Nat) :
    getScore (searchScores idx ws) j
      = (ws.map fun w => wordScore idx w j).sum := by
  have key : ∀ (ws : List String) (sc : ScoreMap),
      getScore (ws.foldl (wordStep idx) sc) j
        = getScore sc j + (ws.map fun w => wordScore idx w j).sum := by
    intro ws
    induction ws with
    | nil =>
      intro sc
      simp
    | cons w ws ih =>
      intro sc
      rw [List.foldl_cons, ih, getScore_wordStep hnd]
      simp only [List.map_cons, List.sum_cons]
      omega
  rw [searchScores, key ws []]
  simp [getScore, scoreFind]

lemma mem_getFields_searchScores {idx : SIndex} (ws : List String) (j : Nat)
    (x : String) :
    x ∈ getFields (searchScores idx ws) j ↔ ∃ w ∈ ws, fires idx w j x := by
  have key : ∀ (ws : List String) (sc : ScoreMap),
      x ∈ getFields (ws.foldl (wordStep idx) sc) j
        ↔ x ∈ getFields sc j ∨ ∃ w ∈ ws, fires idx w j x := by
    intro ws
    induction ws with
    | nil =>
      intro sc
      simp
    | cons w ws ih =>
      intro sc
      rw [List.foldl_cons, ih, mem_getFields_wordStep]
      simp only [List.mem_cons]
      constructor
      · rintro ((hx | hf) | ⟨w', hw', hf'⟩)
        · exact Or.inl hx
        · exact Or.inr ⟨w, Or.inl rfl, hf⟩
        · exact Or.inr ⟨w', Or.inr hw', hf'⟩
      · rintro (hx | ⟨w', hw' | hw', hf'⟩)
        · exact Or.inl (Or.inl hx)
        · exact Or.inl (Or.inr (hw' ▸ hf'))
        · exact Or.inr ⟨w', hw', hf'⟩
  rw [searchScores, key ws []]
  simp [getFields, scoreFind]

/-- C1: in `search`'s accumulator, the score of every record position is the
sum over the query's tokens `w` of: 10 when `w` is itself an index key whose
position set holds the position, plus 5 per index entry whose key starts
with `w` and differs from it and whose set holds the position, plus 2 per
index entry whose key contains `w` without starting with it and whose set
holds the position; a match-kind label is recorded exactly when the
corresponding rule fired for some query token; and the index entries are
pairwise-distinct keys. -/
theorem c1_score_accumulation (ps : List Problem) (q : String) (i : Nat) :
    getScore (searchScores (buildIndex ps) (tokenize q)) i
        = ((tokenize q).map fun w => wordScore (buildIndex ps) w i).sum
      ∧ (∀ lbl, lbl ∈ getFields (searchScores (buildIndex ps) (tokenize q)) i
          ↔ ∃ w ∈ tokenize q, fires (buildIndex ps) w i lbl)
      ∧ ((buildIndex ps).map Prod.fst).Nodup :=
  ⟨getScore_searchScores (buildIndex_values_nodup ps) (tokenize q) i,
    fun lbl => mem_getFields_searchScores (tokenize q) i lbl,
    buildIndex_keys_nodup ps⟩

/-- C9: `stats()` reports the construction-time record count, the number of
distinct index keys, and per-difficulty counts that sum to the total. -/
theorem c9_stats (ps : List Problem) :
    (getStats ps).totalProblems = ps.length
      ∧ (getStats ps).indexSize = ((buildIndex ps).map Prod.fst).dedup.length
      ∧ (getStats ps).easy + (getStats ps).medium + (getStats ps).hard
          = (getStats ps).totalProblems := by
  refine ⟨rfl, ?_, ?_⟩
  · rw [List.dedup_eq_self.mpr (buildIndex_keys_nodup ps)]
    simp [getStats]
  · exact diff_count_sum ps

lemma mem_lookupD_indexAdd {m : SIndex} {k : String} {i : Nat} {t : String}
    {j : Nat} :
    j ∈ lookupD (indexAdd m k i) t ↔ j ∈ lookupD m t ∨ (j = i ∧ t = k) := by
  induction m with
  | nil =>
    by_cases h : k = t
    · subst h
      simp [indexAdd, lookupD, idxFind]
    · simp [indexAdd, lookupD, idxFind, h]
      exact fun _ ht => h ht.symm
  | cons hd rest ih =>
    by_cases hh : hd.1 = k
    · rw [indexAdd, if_pos hh]
      by_cases ht : hd.1 = t
      · have htk : t = k := by rw [← ht, hh]
        have h1 : lookupD ((hd.1, jsSetAdd hd.2 i) :: rest) t
            = jsSetAdd hd.2 i := by simp [lookupD, idxFind, ht]
        have h2 : lookupD (hd :: rest) t = hd.2 := by
          simp [lookupD, idxFind, ht]
        rw [h1, h2, mem_jsSetAdd]
        simp [htk]
      · have htk : ¬ t = k := fun he => ht (by rw [hh, ← he])
        have h1 : lookupD ((hd.1, jsSetAdd hd.2 i) :: rest) t
            = lookupD rest t := by simp [lookupD, idxFind, ht]
        have h2 : lookupD (hd :: rest) t = lookupD rest t := by
          simp [lookupD, idxFind, ht]
        rw [h1, h2]
        simp [htk]
    · rw [indexAdd, if_neg hh]
      by_cases ht : hd.1 = t
      · have htk : ¬ t = k := fun he => hh (by rw [ht, he])
        have h1 : lookupD (hd :: indexAdd rest k i) t = hd.2 := by
          simp [lookupD, idxFind, ht]
        have h2 : lookupD (hd :: rest) t = hd.2 := by
          simp [lookupD, idxFind, ht]
        rw [h1, h2]
        simp [htk]
      · have h1 : lookupD (hd :: indexAdd rest k i) t
            = lookupD (indexAdd rest k i) t := by simp [lookupD, idxFind, ht]
        have h2 : lookupD (hd :: rest) t = lookupD rest t := by
          simp [lookupD, idxFind, ht]
        rw [h1, h2, ih]

lemma mem_lookupD_words (i : Nat) :
    ∀ (ws : List String) (m : SIndex) (t : String) (j : Nat),
      j ∈ lookupD (ws.foldl (fun m w => indexAdd m w i) m) t
        ↔ j ∈ lookupD m t ∨ (j = i ∧ t ∈ ws) := by
  intro ws
  induction ws with
  | nil => simp
  | cons w ws ih =>
    intro m t j
    rw [List.foldl_cons, ih, mem_lookupD_indexAdd]
    simp only [List.mem_cons]
    tauto

lemma mem_lookupD_topicsFold (i : Nat) :
    ∀ (ts : List String) (m : SIndex) (t : String) (j : Nat),
      j ∈ lookupD
            (ts.foldl (fun m s => (tokenize s).foldl
              (fun m w => indexAdd m w i) m) m) t
        ↔ j ∈ lookupD m t ∨ (j = i ∧ ∃ s ∈ ts, t ∈ tokenize s) := by
  intro ts
  induction ts with
  | nil => simp
  | cons s ts ih =>
    intro m t j
    rw [List.foldl_cons, ih, mem_lookupD_words]
    simp only [List.mem_cons]
    constructor
    · rintro ((hm | ⟨rfl, hw⟩) | ⟨rfl, s', hs', hw⟩)
      · exact Or.inl hm
      · exact Or.inr ⟨rfl, s, Or.inl rfl, hw⟩
      · exact Or.inr ⟨rfl, s', Or.inr hs', hw⟩
    · rintro (hm | ⟨rfl, s', hs' | hs', hw⟩)
      · exact Or.inl (Or.inl hm)
      · exact Or.inl (Or.inr ⟨rfl, hs' ▸ hw⟩)
      · exact Or.inr ⟨rfl, s', hs', hw⟩

lemma mem_lookupD_addProblem {m : SIndex} {i : Nat} {p : Problem} {t : String}
    {j : Nat} :
    j ∈ lookupD (addProblem m i p) t
      ↔ j ∈ lookupD m t ∨ (j = i ∧ recordHasToken p t) := by
  unfold addProblem recordHasToken
  rw [mem_lookupD_indexAdd, mem_lookupD_indexAdd,
    mem_lookupD_topicsFold, mem_lookupD_words]
  constructor
  · rintro ((((hm | ⟨rfl, h1⟩) | ⟨rfl, h2⟩) | ⟨rfl, h3⟩) | ⟨rfl, h4⟩)
    · exact Or.inl hm
    · exact Or.inr ⟨rfl, Or.inl h1⟩
    · exact Or.inr ⟨rfl, Or.inr (Or.inl h2)⟩
    · exact Or.inr ⟨rfl, Or.inr (Or.inr (Or.inl h3))⟩
    · exact Or.inr ⟨rfl, Or.inr (Or.inr (Or.inr h4))⟩
  · rintro (hm | ⟨rfl, h1 | h2 | h3 | h4⟩)
    · exact Or.inl (Or.inl (Or.inl (Or.inl hm)))
    · exact Or.inl (Or.inl (Or.inl (Or.inr ⟨rfl, h1⟩)))
    · exact Or.inl (Or.inl (Or.inr ⟨rfl, h2⟩))
    · exact Or.inl (Or.inr ⟨rfl, h3⟩)
    · exact Or.inr ⟨rfl, h4⟩

lemma mem_lookupD_enumFold (ps : List Problem) :
    ∀ (n : Nat) (m : SIndex) (t : String) (j : Nat),
      j ∈ lookupD ((List.enumFrom n ps).foldl
            (fun m ip => addProblem m ip.1 ip.2) m) t
        ↔ j ∈ lookupD m t
            ∨ ∃ d, d < ps.length ∧ j = n + d
                ∧ recordHasToken (ps.getD d default) t := by
  induction ps with
  | nil => simp [List.enumFrom]
  | cons p rest ih =>
    intro n m t j
    rw [show List.enumFrom n (p :: rest)
          = (n, p) :: List.enumFrom (n + 1) rest from rfl,
      List.foldl_cons, ih, mem_lookupD_addProblem]
    constructor
    · rintro ((hm | ⟨rfl, hp⟩) | ⟨d, hd, rfl, hr⟩)
      · exact Or.inl hm
      · exact Or.inr ⟨0, by simp, by omega,
          by rw [List.getD_cons_zero]; exact hp⟩
      · exact Or.inr ⟨d + 1, by simp only [List.length_cons]; omega, by omega,
          by rw [List.getD_cons_succ]; exact hr⟩
    · rintro (hm | ⟨d, hd, rfl, hr⟩)
      · exact Or.inl (Or.inl hm)
      · cases d with
        | zero =>
            rw [List.getD_cons_zero] at hr
            exact Or.inl (Or.inr ⟨by omega, hr⟩)
        | succ d =>
            rw [List.getD_cons_succ] at hr
            exact Or.inr ⟨d, by simp only [List.length_cons] at hd; omega,
              by omega, hr⟩

/-- C2: in the index built at construction every token key maps to a
non-empty position set, and position `i` is stored under key `t` exactly
when `t` is a token of record `i`'s title or of one of its topics, or `t`
is its lowercased difficulty name, or `t` is its identifier string
verbatim. -/
theorem c2_index_invariant (ps : List Problem) :
    (∀ kv ∈ buildIndex ps, kv.2 ≠ [])
      ∧ ∀ (t : String) (i : Nat),
          i ∈ lookupD (buildIndex ps) t
            ↔ i < ps.length ∧ recordHasToken (ps.getD i default) t := by
  refine ⟨buildIndex_values_ne_nil ps, ?_⟩
  intro t i
  unfold buildIndex
  rw [show ps.enum = List.enumFrom 0 ps from rfl, mem_lookupD_enumFold]
  simp only [lookupD, idxFind, Option.getD_none, List.not_mem_nil, false_or]
  constructor
  · rintro ⟨d, hd, rfl, hr⟩
    rw [Nat.zero_add]
    exact ⟨hd, hr⟩
  · rintro ⟨hi, hr⟩
    exact ⟨i, hi, by omega, hr⟩

lemma foldl_ite_jsSetAdd {α : Type} (p : α → Bool) (f : α → String) :
    ∀ (l : List α) (acc : List String),
      l.foldl (fun acc x => if p x then jsSetAdd acc (f x) else acc) acc
        = ((l.filter p).map f).foldl jsSetAdd acc := by
  intro l
  induction l with
  | nil => intro acc; rfl
  | cons x xs ih =>
    intro acc
    by_cases h : p x <;> simp [List.foldl_cons, List.filter_cons, h, ih]

lemma topics_foldl (ql : String) :
    ∀ (ps : List Problem) (acc : List String),
      ps.foldl
          (fun acc p => p.topics.foldl
            (fun acc t => if jsIncludes (strLower t) ql then jsSetAdd acc t
             else acc) acc) acc
        = (topicMatches ps ql).foldl jsSetAdd acc := by
  intro ps
  induction ps with
  | nil => intro acc; rfl
  | cons p rest ih =>
    intro acc
    rw [List.foldl_cons, ih, topicMatches, List.foldl_append]
    have h := foldl_ite_jsSetAdd (fun t => jsIncludes (strLower t) ql)
      (fun t => t) p.topics acc
    simp only [List.map_id'] at h
    rw [h]

/-- C8 counterexample: the claim quantifies over every non-empty query, but
for the non-empty whitespace query `" "` the engine's `trim` guard returns
`[]` while the claimed title-then-topic suggestion list is non-empty (the
record title `"a b"` contains `" "`). -/
theorem c8_counterexample :
    (" " : String) ≠ ""
      ∧ autocomplete probsWS " " 10 ≠ (autocompleteSpec probsWS " ").take 10 :=
  ⟨by decide, by decide⟩

/-- C8 (amended): for every query with at least one non-whitespace character
and every nonnegative bound, `autocomplete` returns the distinct strings, in
insertion order, obtained by first adding each title whose lowercase form
contains the lowercased query (in record order) and then each topic whose
lowercase form contains it (record order, topics in order), duplicates
suppressed keeping the first occurrence, truncated to the first
`maxSuggestions` entries. -/
theorem c8_autocomplete_shape (ps : List Problem) (q : String) (n : Nat)
    (h : blankQuery q = false) :
    autocomplete ps q (n : Int) = (autocompleteSpec ps q).take n := by
  unfold autocomplete autocompleteSpec
  rw [h]
  simp only [Bool.false_eq_true, if_false]
  rw [foldl_ite_jsSetAdd (fun p => jsIncludes (strLower p.title) (strLower q))
      Problem.title ps [], topics_foldl (strLower q) ps _, ← List.foldl_append]
  unfold jsTake
  rw [if_neg (by omega : ¬ (n : Int) < 0)]
  simp

/-- Witness for C8 on the two-record scenario with query `"sum"`, bound 10. -/
theorem c8_autocomplete_shape_witness :
    blankQuery "sum" = false
      ∧ autocomplete probs2 "sum" ((10 : Nat) : Int)
          = (autocompleteSpec probs2 "sum").take 10 :=
  ⟨by decide, c8_autocomplete_shape probs2 "sum" 10 (by decide)⟩

/-- C5: the sequence returned by `search` is sorted by non-increasing score:
every earlier result's score is at least every later one's. -/
theorem c5_sorted_desc (ps : List Problem) (q : String) (b : Int) :
    (search ps q b).Pairwise fun a c => c.score ≤ a.score := by
  unfold search
  by_cases hq : blankQuery q
  · simp [hq]
  · rw [if_neg hq]
    exact (pairwise_sortDesc _).sublist (jsTake_sublist b (searchAll ps q))

end CSP
